import Mathlib

/-!
# Verification of the Rust code-generation visitor

Shallow embedding of `src/lib/codegen/fromcto/rust/rustvisitor.js` (class
`RustVisitor`): the name sanitizer, the namespace transliteration, the type
mapper, the per-declaration emitters and the dispatcher, modelled as pure
Lean functions producing the exact sequences of `(indent, text)` lines the
JavaScript writes through `parameters.fileWriter`.
-/

/-- The Rust keyword list (`keywords` in the source). -/
def keywords : List String :=
  ["abstract", "as", "async", "await", "become", "box", "break", "const", "continue", "crate",
   "do", "dyn", "else", "enum", "extern", "false", "final", "fn", "for", "if", "impl", "in",
   "let", "loop", "macro", "match", "mod", "move", "mut", "override", "priv", "pub", "ref",
   "return", "self", "static", "struct", "super", "trait", "true", "try", "type", "typeof",
   "unsafe", "unsized", "use", "virtual", "where", "while", "yield"]

/-- Valid characters for Rust names (`validChars` in the source). -/
def validChars : List Char :=
  "abcdefghijklmnopqrstuvwxyzABCDEFGHIJKLMNOPQRSTUVWXYZ0123456789_".toList

/-- The character class of the regular expression `/[A-Z]/`. -/
def isAsciiUpper (c : Char) : Bool := 'A' ≤ c && c ≤ 'Z'

/-- Step 1 of `toValidRustName`:
`Array.from(input, c => validChars.includes(c) ? c : '_').join('')`. -/
def sanitizeChars (cs : List Char) : List Char :=
  cs.map fun c => if c ∈ validChars then c else '_'

/-- Step 2 of `toValidRustName`, tail positions (`offset > 0`): an uppercase
letter becomes an underscore followed by its lowercase form. -/
def snakeTail : List Char → List Char
  | [] => []
  | c :: rest => (if isAsciiUpper c then ['_', c.toLower] else [c]) ++ snakeTail rest

/-- Step 2 of `toValidRustName`:
`result.replace(/[A-Z]/g, (match, offset) => offset === 0 ? lower : '_' + lower)`.
The offset-0 match is lowercased without the underscore. -/
def snakeChars : List Char → List Char
  | [] => []
  | c :: rest => (if isAsciiUpper c then [c.toLower] else [c]) ++ snakeTail rest

/-- Step 3's guard, `validChars.includes(result.charAt(0))`.  In JavaScript
`''.charAt(0)` evaluates to the empty string and `validChars.includes('')` is
`true`, so the guard holds on the empty string. -/
def headCharValid : List Char → Bool
  | [] => true
  | c :: _ => decide (c ∈ validChars)

/-- The `while (keywords.includes(result)) { result += '_'; }` loop, with
fuel.  No Rust keyword ends in an underscore, so the body runs at most once
and any fuel of at least 2 computes the loop's exact result
(`keywordLoop_fuel` below). -/
def keywordLoop : Nat → String → String
  | 0, s => s
  | fuel + 1, s => if s ∈ keywords then keywordLoop fuel (s ++ "_") else s

/-- `RustVisitor.toValidRustName`: replace invalid characters by `_`,
snake-case, prepend `_` when the first character fails the
`validChars.includes` test, then escape keywords by appending `_`. -/
def toValidRustName (input : String) : String :=
  let r1 := sanitizeChars input.toList
  let r2 := snakeChars r1
  let r3 := if headCharValid r2 then String.mk r2 else String.mk ('_' :: r2)
  keywordLoop 2 r3

/-- `RustVisitor.toRustCrateName`:
`namespace.replace(/@/g, '_').replace(/\./g, '_')` — two successive global
single-character replacements. -/
def toRustCrateName (namespaceName : String) : String :=
  String.mk ((namespaceName.toList.map fun c => if c = '@' then '_' else c).map
    fun c => if c = '.' then '_' else c)

/-- `RustVisitor.toRustType`. -/
def toRustType (typeName : String) : String :=
  if typeName = "DateTime" then "DateTime<Utc>"
  else if typeName = "Boolean" then "bool"
  else if typeName = "Long" then "u64"
  else if typeName = "Double" then "f64"
  else typeName

/-- `RustVisitor.isDateField`. -/
def isDateField (typeName : String) : Bool := typeName = "DateTime"

/-- JavaScript `s.replace('$', '')` with a plain-string pattern removes only
the first occurrence of the character. -/
def removeFirstChar (target : Char) : List Char → List Char
  | [] => []
  | c :: cs => if c = target then cs else c :: removeFirstChar target cs

/-- `field.name.replace('$', '')` as used in `visitField` and
`visitRelationshipDeclaration`. -/
def removeFirstDollar (s : String) : String := String.mk (removeFirstChar '$' s.toList)

/-- One line written through `parameters.fileWriter.writeLine(indent, text)`. -/
structure Line where
  indent : Nat
  text : String
deriving DecidableEq, Repr

/-- The data of a field or relationship node as read by the emitters:
`name`, `type`, and the `isArray?.()` / `isOptional?.()` capability results
(`false` when the method is absent, as on the synthetic `$class` object). -/
structure MemberDecl where
  name : String
  typeName : String
  isArray : Bool
  isOptional : Bool
deriving DecidableEq, Repr

/-- The type expression built by `visitField`: `toRustType`, then
`Vec<...>` when `isArray?.()`, then `Option<...>` when `isOptional?.()`. -/
def rustFieldType (field : MemberDecl) : String :=
  let t0 := toRustType field.typeName
  let t1 := if field.isArray then "Vec<" ++ t0 ++ ">" else t0
  if field.isOptional then "Option<" ++ t1 ++ ">" else t1

/-- `RustVisitor.visitField`: the exact lines appended for one field. -/
def visitField (field : MemberDecl) : List Line :=
  [⟨1, "#[serde("⟩,
   ⟨2, "rename = \"" ++ field.name ++ "\","⟩]
  ++ (if field.isOptional then [⟨2, "skip_serializing_if = \"Option::is_none\","⟩] else [])
  ++ (if isDateField field.typeName then
        if field.isOptional then
          [⟨2, "serialize_with = \"serialize_datetime_option\","⟩,
           ⟨2, "deserialize_with = \"deserialize_datetime_option\","⟩]
        else
          [⟨2, "serialize_with = \"serialize_datetime\","⟩,
           ⟨2, "deserialize_with = \"deserialize_datetime\","⟩]
      else [])
  ++ [⟨1, ")]"⟩,
      ⟨1, "pub " ++ toValidRustName (removeFirstDollar field.name) ++ ": "
            ++ rustFieldType field ++ ","⟩]

/-- The type expression built by `visitRelationshipDeclaration`: the raw
declared type (no `toRustType`), then `Vec<...>`, then `Option<...>`. -/
def rustRelationshipType (rel : MemberDecl) : String :=
  let t1 := if rel.isArray then "Vec<" ++ rel.typeName ++ ">" else rel.typeName
  if rel.isOptional then "Option<" ++ t1 ++ ">" else t1

/-- `RustVisitor.visitRelationshipDeclaration`. -/
def visitRelationshipDeclaration (rel : MemberDecl) : List Line :=
  [⟨1, "#[serde(rename = \"" ++ rel.name ++ "\")]"⟩,
   ⟨1, "pub " ++ toValidRustName (removeFirstDollar rel.name) ++ ": "
         ++ rustRelationshipType rel ++ ","⟩]

/-- A property of a class declaration: a `Field` or a `RelationshipDeclaration`
node (the two property kinds the class emitter dispatches to). -/
inductive ClassProperty where
  | field (f : MemberDecl)
  | relationship (r : MemberDecl)
deriving DecidableEq, Repr

/-- The `.name` data member of a property node. -/
def ClassProperty.name : ClassProperty → String
  | .field f => f.name
  | .relationship r => r.name

/-- `property.accept(this, parameters)` on a class property: the `visit`
dispatcher routes fields to `visitField` and relationships to
`visitRelationshipDeclaration`. -/
def visitProperty : ClassProperty → List Line
  | .field f => visitField f
  | .relationship r => visitRelationshipDeclaration r

/-- A class declaration node: its name and `getProperties()` result. -/
structure ClassDecl where
  name : String
  properties : List ClassProperty
deriving DecidableEq, Repr

/-- `RustVisitor.visitClassDeclaration`: derive header, struct header, the
synthetic `{ name: '$class', type: 'String' }` field (whose `isArray?.()` and
`isOptional?.()` are undefined, hence falsy), one blank line plus emission per
declared property whose name is not `identifier`, and the closing braces. -/
def visitClassDeclaration (classDeclaration : ClassDecl) : List Line :=
  [⟨0, "#[derive(Debug, Serialize, Deserialize)]"⟩,
   ⟨0, "pub struct " ++ classDeclaration.name ++ " \x7b"⟩]
  ++ visitField ⟨"$class", "String", false, false⟩
  ++ (classDeclaration.properties.filter
        (fun property => ¬ (property.name = "identifier"))).flatMap
      (fun property => ⟨1, ""⟩ :: visitProperty property)
  ++ [⟨0, "\x7d"⟩, ⟨0, ""⟩]

/-- A scalar declaration node (only its name is read). -/
structure ScalarDecl where
  name : String
deriving DecidableEq, Repr

/-- `RustVisitor.visitScalarDeclaration`: writes the single placeholder line
`scalarDeclaration - <name>` at indent 0 and returns null. -/
def visitScalarDeclaration (scalarDeclaration : ScalarDecl) : List Line :=
  [⟨0, "scalarDeclaration - " ++ scalarDeclaration.name⟩]

/-- The lines of the `lib.rs` manifest written by `visitModelManager`:
one `pub mod <toValidRustName namespace>;` line per namespace, then
`pub mod utils;`. -/
def libLines (namespaces : List String) : List Line :=
  namespaces.map (fun ns => ⟨0, "pub mod " ++ toValidRustName ns ++ ";"⟩)
  ++ [⟨0, "pub mod utils;"⟩]

/-- The file name opened by `visitModelFile`:
`` parameters.fileWriter.openFile(`${this.toValidRustName(modelFile.getNamespace())}.rs`) ``. -/
def modelFileName (namespaceName : String) : String :=
  toValidRustName namespaceName ++ ".rs"

/-- The capability predicates probed by the `visit` dispatcher, plus the two
strings interpolated into the failure message (`typeof thing` and
`util.inspect(thing, ...)`). -/
structure ModelNode where
  isModelManager : Bool
  isModelFile : Bool
  isEnum : Bool
  isClassDeclaration : Bool
  isTypeScalar : Bool
  isField : Bool
  isRelationship : Bool
  isScalarDeclaration : Bool
  isEnumValue : Bool
  typeofText : String
  inspectText : String
deriving DecidableEq, Repr

/-- Which branch of the `visit` dispatcher runs: one constructor per
sub-visitor call, or the thrown `Error`'s message. -/
inductive VisitOutcome where
  | modelManager
  | modelFile
  | enumDeclaration
  | classDeclaration
  | scalarFieldAsField
  | field
  | relationshipDeclaration
  | scalarDeclaration
  | enumValueDeclaration
  | unrecognised (message : String)
deriving DecidableEq, Repr

/-- `RustVisitor.visit`: the if/else-if capability dispatch; the final `else`
throws `Error('Unrecognised type: ' + typeof thing + ', value: ' + util.inspect(thing, ...))`. -/
def visit (thing : ModelNode) : VisitOutcome :=
  if thing.isModelManager then .modelManager
  else if thing.isModelFile then .modelFile
  else if thing.isEnum then .enumDeclaration
  else if thing.isClassDeclaration then .classDeclaration
  else if thing.isTypeScalar then .scalarFieldAsField
  else if thing.isField then .field
  else if thing.isRelationship then .relationshipDeclaration
  else if thing.isScalarDeclaration then .scalarDeclaration
  else if thing.isEnumValue then .enumValueDeclaration
  else .unrecognised ("Unrecognised type: " ++ thing.typeofText ++ ", value: "
         ++ thing.inspectText)

/-- A class declaration node for recursion detection: its name and the
declared type names of its properties. -/
structure ClassNode where
  name : String
  propertyTypes : List String
deriving DecidableEq, Repr

/-- Resolve a declared type name to the class declaration carrying it. -/
def lookupClass (model : List ClassNode) (typeName : String) : Option ClassNode :=
  model.find? fun c => decide (c.name = typeName)

/-- Modelled from the spec: the `RecursionDetectionVisitor` loaded from
`./recursionvisitor` is not among the sources under `src/`, so the traversal
is modelled from §4.4 of the specification — a depth-first traversal from the
origin declaration maintaining an explicit path stack of visited declaration
names; a class-typed property edge to a type already on the path stack
reports true only when that type is the origin itself and is not followed
further; any other class-typed edge is pushed and recursed into; exhausting
all branches reports false.  Fuel bounds the depth; the stack only grows
along names not yet on it, so `model.length + 1` fuel is exhaustive. -/
def recCheck (model : List ClassNode) (origin : String) :
    Nat → List String → ClassNode → Bool
  | 0, _, _ => false
  | fuel + 1, stack, node =>
    node.propertyTypes.any fun t =>
      match lookupClass model t with
      | none => false
      | some child =>
        if t ∈ node.name :: stack then decide (t = origin)
        else recCheck model origin fuel (node.name :: stack) child

/-- Modelled from the spec: `RustVisitor.isModelRecursive` runs the
recursion-detection traversal on the class with an initially empty stack
(`classDeclaration.accept(visitor, { stack: [] })`). -/
def isModelRecursive (model : List ClassNode) (decl : ClassNode) : Bool :=
  recCheck model decl.name (model.length + 1) [] decl

/-! ## Analysis vocabulary (definitions used to state the claims) -/

/-- A data-member line of an emitted record: indent 1 and text beginning
with `pub ` (as opposed to attribute lines, separators and braces). -/
def isMemberLine (l : Line) : Bool :=
  l.indent == 1 && "pub ".toList.isPrefixOf l.text.toList

/-- The member texts of an emitted block, in order. -/
def memberLines (lines : List Line) : List String :=
  (lines.filter isMemberLine).map Line.text

/-- The member text contributed by one declared property. -/
def propertyMemberLine : ClassProperty → String
  | .field f =>
      "pub " ++ toValidRustName (removeFirstDollar f.name) ++ ": "
        ++ rustFieldType f ++ ","
  | .relationship r =>
      "pub " ++ toValidRustName (removeFirstDollar r.name) ++ ": "
        ++ rustRelationshipType r ++ ","

/-- Characters allowed by `[a-z_]`. -/
def lowerStartChars : List Char := "abcdefghijklmnopqrstuvwxyz_".toList

/-- Characters allowed by `[a-z0-9_]`. -/
def lowerIdentChars : List Char := "abcdefghijklmnopqrstuvwxyz0123456789_".toList

/-- Whether a string matches the regular expression `[a-z_][a-z0-9_]*`. -/
def matchesLowerIdent (s : String) : Bool :=
  match s.toList with
  | [] => false
  | c :: cs => decide (c ∈ lowerStartChars) && cs.all fun d => decide (d ∈ lowerIdentChars)

/-- The class-typed property edges of the model, on declaration names:
`a` has a property whose declared type resolves to the class named `t`. -/
def classEdge (model : List ClassNode) (a t : String) : Prop :=
  ∃ c, lookupClass model a = some c ∧ t ∈ c.propertyTypes ∧ (lookupClass model t).isSome

/-! ## Basic string lemmas -/

theorem str_toList_append (a b : String) : (a ++ b).toList = a.toList ++ b.toList :=
  String.data_append a b

theorem str_toList_mk (l : List Char) : (String.mk l).toList = l := rfl

theorem toList_head_of_head {a : String} {c : Char} {r : List Char} (s : String)
    (ha : a.toList = c :: r) : (a ++ s).toList = c :: (r ++ s.toList) := by
  rw [str_toList_append, ha]; rfl

theorem append_ne_of_head {a b : String} {c d : Char} {ra rb : List Char}
    (ha : a.toList = c :: ra) (hb : b.toList = d :: rb) (h : c ≠ d) : a ≠ b := by
  intro he
  rw [he, hb] at ha
  exact h (List.head_eq_of_cons_eq ha.symm)

theorem pub_isPrefixOf_append (s : String) :
    "pub ".toList.isPrefixOf ("pub " ++ s).toList = true := by
  rw [List.isPrefixOf_iff_prefix, str_toList_append]
  exact List.prefix_append _ _

theorem pub_not_prefix_cons {c : Char} (rest : List Char) (h : c ≠ 'p') :
    "pub ".toList.isPrefixOf (c :: rest) = false := by
  rw [Bool.eq_false_iff]
  intro htrue
  rw [List.isPrefixOf_iff_prefix] at htrue
  rcases htrue with ⟨t, ht⟩
  rw [show "pub ".toList = 'p' :: "ub ".toList from rfl, List.cons_append] at ht
  exact h (List.head_eq_of_cons_eq ht).symm

/-! ## The keyword-escaping loop -/

theorem keyword_last_not_underscore : ∀ k ∈ keywords, k.toList.getLast? ≠ some '_' := by
  decide

theorem append_underscore_not_keyword (s : String) : (s ++ "_") ∉ keywords := by
  intro h
  apply keyword_last_not_underscore _ h
  rw [str_toList_append, show ("_" : String).toList = ['_'] from rfl]
  exact List.getLast?_concat _

theorem keywordLoop_not_mem {t : String} (h : t ∉ keywords) (n : Nat) :
    keywordLoop (n + 1) t = t := by
  simp [keywordLoop, h]

theorem keywordLoop_ge_two (n : Nat) (s : String) :
    keywordLoop (n + 2) s = if s ∈ keywords then s ++ "_" else s := by
  by_cases h : s ∈ keywords
  · have e1 : keywordLoop (n + 2) s = keywordLoop (n + 1) (s ++ "_") := by
      show (if s ∈ keywords then keywordLoop (n + 1) (s ++ "_") else s) = _
      rw [if_pos h]
    rw [e1, keywordLoop_not_mem (append_underscore_not_keyword s), if_pos h]
  · rw [show n + 2 = (n + 1) + 1 from rfl, keywordLoop_not_mem h, if_neg h]

theorem keywordLoop_two_not_keyword (s : String) : keywordLoop 2 s ∉ keywords := by
  rw [show (2 : Nat) = 0 + 2 from rfl, keywordLoop_ge_two]
  by_cases h : s ∈ keywords
  · rw [if_pos h]; exact append_underscore_not_keyword s
  · rw [if_neg h]; exact h

/-! ## Character-set facts for the sanitizer -/

theorem underscore_mem_validChars : '_' ∈ validChars := by decide

theorem underscore_mem_lowerIdentChars : '_' ∈ lowerIdentChars := by decide

theorem validChars_upper_toLower :
    ∀ c ∈ validChars, isAsciiUpper c = true → c.toLower ∈ lowerIdentChars := by decide

theorem validChars_not_upper_mem :
    ∀ c ∈ validChars, isAsciiUpper c = false → c ∈ lowerIdentChars := by decide

theorem lowerIdentChars_sub_validChars : ∀ c ∈ lowerIdentChars, c ∈ validChars := by decide

theorem lowerIdentChars_not_upper : ∀ c ∈ lowerIdentChars, isAsciiUpper c = false := by decide

theorem mem_sanitizeChars {l : List Char} {c : Char} (h : c ∈ sanitizeChars l) :
    c ∈ validChars := by
  rcases List.mem_map.1 h with ⟨d, _, hd⟩
  by_cases hv : d ∈ validChars
  · rw [if_pos hv] at hd; exact hd ▸ hv
  · rw [if_neg hv] at hd; exact hd ▸ underscore_mem_validChars

theorem mem_snakeTail {l : List Char} (hl : ∀ c ∈ l, c ∈ validChars) :
    ∀ c ∈ snakeTail l, c ∈ lowerIdentChars := by
  induction l with
  | nil => intro c hc; simp [snakeTail] at hc
  | cons d rest ih =>
    intro c hc
    have hd := hl d (List.mem_cons_self d rest)
    rw [snakeTail] at hc
    rcases List.mem_append.1 hc with h1 | h2
    · by_cases hu : isAsciiUpper d
      · rw [if_pos hu] at h1
        simp only [List.mem_cons, List.not_mem_nil, or_false] at h1
        rcases h1 with h1 | h1
        · exact h1 ▸ underscore_mem_lowerIdentChars
        · exact h1 ▸ validChars_upper_toLower d hd hu
      · rw [if_neg hu] at h1
        simp only [List.mem_cons, List.not_mem_nil, or_false] at h1
        exact h1 ▸ validChars_not_upper_mem d hd (Bool.eq_false_iff.mpr hu)
    · exact ih (fun c hc => hl c (List.mem_cons_of_mem d hc)) c h2

theorem mem_snakeChars {l : List Char} (hl : ∀ c ∈ l, c ∈ validChars) :
    ∀ c ∈ snakeChars l, c ∈ lowerIdentChars := by
  cases l with
  | nil => intro c hc; simp [snakeChars] at hc
  | cons d rest =>
    intro c hc
    have hd := hl d (List.mem_cons_self d rest)
    rw [snakeChars] at hc
    rcases List.mem_append.1 hc with h1 | h2
    · by_cases hu : isAsciiUpper d
      · rw [if_pos hu] at h1
        simp only [List.mem_cons, List.not_mem_nil, or_false] at h1
        exact h1 ▸ validChars_upper_toLower d hd hu
      · rw [if_neg hu] at h1
        simp only [List.mem_cons, List.not_mem_nil, or_false] at h1
        exact h1 ▸ validChars_not_upper_mem d hd (Bool.eq_false_iff.mpr hu)
    · exact mem_snakeTail (fun c hc => hl c (List.mem_cons_of_mem d hc)) c h2

theorem mem_keywordLoop_two {s : String} {c : Char} (hc : c ∈ (keywordLoop 2 s).toList) :
    c ∈ s.toList ∨ c = '_' := by
  rw [show (2 : Nat) = 0 + 2 from rfl, keywordLoop_ge_two] at hc
  split at hc
  · rw [str_toList_append] at hc
    rcases List.mem_append.1 hc with h | h
    · exact Or.inl h
    · right
      simpa using h
  · exact Or.inl hc

theorem toValidRustName_chars (input : String) :
    ∀ c ∈ (toValidRustName input).toList, c ∈ lowerIdentChars := by
  intro c hc
  have h2 : ∀ d ∈ snakeChars (sanitizeChars input.toList), d ∈ lowerIdentChars :=
    mem_snakeChars (fun d hd => mem_sanitizeChars hd)
  have hc' : c ∈ (keywordLoop 2
      (if headCharValid (snakeChars (sanitizeChars input.toList)) then
        String.mk (snakeChars (sanitizeChars input.toList))
      else String.mk ('_' :: snakeChars (sanitizeChars input.toList)))).toList := hc
  rcases mem_keywordLoop_two hc' with h | h
  · by_cases hh : headCharValid (snakeChars (sanitizeChars input.toList)) = true
    · rw [if_pos hh, str_toList_mk] at h
      exact h2 c h
    · rw [if_neg hh, str_toList_mk] at h
      rcases List.mem_cons.1 h with h | h
      · exact h ▸ underscore_mem_lowerIdentChars
      · exact h2 c h
  · exact h ▸ underscore_mem_lowerIdentChars

theorem sanitizeChars_id {l : List Char} (h : ∀ c ∈ l, c ∈ validChars) :
    sanitizeChars l = l := by
  induction l with
  | nil => rfl
  | cons d rest ih =>
    have hd := h d (List.mem_cons_self d rest)
    have ht := ih (fun c hc => h c (List.mem_cons_of_mem d hc))
    show (if d ∈ validChars then d else '_') :: sanitizeChars rest = d :: rest
    rw [if_pos hd, ht]

theorem snakeTail_id {l : List Char} (h : ∀ c ∈ l, isAsciiUpper c = false) :
    snakeTail l = l := by
  induction l with
  | nil => rfl
  | cons d rest ih =>
    have hd : ¬ (isAsciiUpper d = true) := by
      rw [h d (List.mem_cons_self d rest)]
      exact Bool.false_ne_true
    rw [snakeTail, if_neg hd, ih (fun c hc => h c (List.mem_cons_of_mem d hc))]
    rfl

theorem snakeChars_id {l : List Char} (h : ∀ c ∈ l, isAsciiUpper c = false) :
    snakeChars l = l := by
  cases l with
  | nil => rfl
  | cons d rest =>
    have hd : ¬ (isAsciiUpper d = true) := by
      rw [h d (List.mem_cons_self d rest)]
      exact Bool.false_ne_true
    rw [snakeChars, if_neg hd, snakeTail_id (fun c hc => h c (List.mem_cons_of_mem d hc))]
    rfl

theorem headCharValid_of_valid {l : List Char} (h : ∀ c ∈ l, c ∈ validChars) :
    headCharValid l = true := by
  cases l with
  | nil => rfl
  | cons d rest =>
    show decide (d ∈ validChars) = true
    exact decide_eq_true (h d (List.mem_cons_self d rest))

theorem toValidRustName_not_keyword (input : String) :
    toValidRustName input ∉ keywords := by
  show keywordLoop 2
      (if headCharValid (snakeChars (sanitizeChars input.toList)) then
        String.mk (snakeChars (sanitizeChars input.toList))
      else String.mk ('_' :: snakeChars (sanitizeChars input.toList))) ∉ keywords
  exact keywordLoop_two_not_keyword _

theorem toValidRustName_fixed {s : String}
    (hchars : ∀ c ∈ s.toList, c ∈ lowerIdentChars) (hkw : s ∉ keywords) :
    toValidRustName s = s := by
  have hvalid : ∀ c ∈ s.toList, c ∈ validChars :=
    fun c hc => lowerIdentChars_sub_validChars c (hchars c hc)
  have h1 : sanitizeChars s.toList = s.toList := sanitizeChars_id hvalid
  show keywordLoop 2
      (if headCharValid (snakeChars (sanitizeChars s.toList)) then
        String.mk (snakeChars (sanitizeChars s.toList))
      else String.mk ('_' :: snakeChars (sanitizeChars s.toList))) = s
  rw [h1, snakeChars_id (fun c hc => lowerIdentChars_not_upper c (hchars c hc)),
    if_pos (headCharValid_of_valid hvalid), show String.mk s.toList = s by cases s; rfl]
  exact keywordLoop_not_mem hkw 1

/-! ## Member-line extraction lemmas -/

theorem memberLines_append (a b : List Line) :
    memberLines (a ++ b) = memberLines a ++ memberLines b := by
  unfold memberLines
  rw [List.filter_append, List.map_append]

theorem isMemberLine_pub (s : String) : isMemberLine ⟨1, "pub " ++ s⟩ = true := by
  show ((1 == 1) && ("pub ".toList.isPrefixOf ("pub " ++ s).toList)) = true
  rw [pub_isPrefixOf_append, Bool.and_true]
  rfl

theorem isMemberLine_indent {n : Nat} (h : n ≠ 1) (t : String) :
    isMemberLine ⟨n, t⟩ = false := by
  show ((n == 1) && ("pub ".toList.isPrefixOf t.toList)) = false
  rw [beq_eq_false_iff_ne.mpr h, Bool.false_and]

theorem isMemberLine_not_pub {t : String} {c : Char} {r : List Char}
    (ht : t.toList = c :: r) (h : c ≠ 'p') (n : Nat) : isMemberLine ⟨n, t⟩ = false := by
  show ((n == 1) && ("pub ".toList.isPrefixOf t.toList)) = false
  rw [ht, pub_not_prefix_cons r h, Bool.and_false]

theorem isMemberLine_empty (n : Nat) : isMemberLine ⟨n, ""⟩ = false := by
  show ((n == 1) && ("pub ".toList.isPrefixOf "".toList)) = false
  rw [show ("pub ".toList.isPrefixOf "".toList) = false from rfl, Bool.and_false]

theorem isMemberLine_serde_rename (name : String) :
    isMemberLine ⟨1, "#[serde(rename = \"" ++ name ++ "\")]"⟩ = false := by
  have h1 : ("#[serde(rename = \"" ++ name).toList
      = '#' :: ("[serde(rename = \"".toList ++ name.toList) :=
    toList_head_of_head name rfl
  exact isMemberLine_not_pub (toList_head_of_head _ h1) (by decide) 1

theorem memberLines_visitField (f : MemberDecl) :
    memberLines (visitField f)
      = ["pub " ++ toValidRustName (removeFirstDollar f.name) ++ ": "
           ++ rustFieldType f ++ ","] := by
  unfold visitField memberLines
  rcases f with ⟨name, typeName, isArr, isOpt⟩
  cases isOpt <;> cases hd : isDateField typeName <;>
    simp only [hd, if_true, if_false, Bool.false_eq_true, ite_true, ite_false,
      List.append_assoc, List.cons_append, List.nil_append, List.filter_cons,
      List.filter_nil, isMemberLine_pub, String.append_assoc,
      isMemberLine_indent (show (2 : Nat) ≠ 1 by decide),
      show isMemberLine ⟨1, "#[serde("⟩ = false by decide,
      show isMemberLine ⟨1, ")]"⟩ = false by decide,
      if_true, if_false, List.map_cons, List.map_nil]

theorem memberLines_visitRelationship (r : MemberDecl) :
    memberLines (visitRelationshipDeclaration r)
      = ["pub " ++ toValidRustName (removeFirstDollar r.name) ++ ": "
           ++ rustRelationshipType r ++ ","] := by
  unfold visitRelationshipDeclaration memberLines
  simp only [List.filter_cons, List.filter_nil, isMemberLine_serde_rename,
    String.append_assoc, isMemberLine_pub, if_true, if_false, Bool.false_eq_true,
    ite_true, ite_false, List.map_cons, List.map_nil]
  rfl

theorem memberLines_visitProperty (p : ClassProperty) :
    memberLines (visitProperty p) = [propertyMemberLine p] := by
  cases p with
  | field f => rw [visitProperty, propertyMemberLine, memberLines_visitField]
  | relationship r => rw [visitProperty, propertyMemberLine, memberLines_visitRelationship]

theorem memberLines_properties (l : List ClassProperty) :
    memberLines (l.flatMap fun p => ⟨1, ""⟩ :: visitProperty p)
      = l.map propertyMemberLine := by
  induction l with
  | nil => rfl
  | cons p rest ih =>
    rw [List.flatMap_cons]
    have hp : memberLines (⟨1, ""⟩ :: visitProperty p) = [propertyMemberLine p] := by
      show memberLines ([⟨1, ""⟩] ++ visitProperty p) = _
      rw [memberLines_append, memberLines_visitProperty]
      simp [memberLines, List.filter_cons, isMemberLine_empty]
    rw [memberLines_append, hp, ih]
    rfl

theorem visitField_getLast (f : MemberDecl) :
    (visitField f).getLast?
      = some ⟨1, "pub " ++ toValidRustName (removeFirstDollar f.name) ++ ": "
          ++ rustFieldType f ++ ","⟩ := by
  unfold visitField
  rcases f with ⟨name, typeName, isArr, isOpt⟩
  cases isOpt <;> cases hd : isDateField typeName <;>
    simp [hd, List.getLast?_append]

theorem visitRelationship_getLast (r : MemberDecl) :
    (visitRelationshipDeclaration r).getLast?
      = some ⟨1, "pub " ++ toValidRustName (removeFirstDollar r.name) ++ ": "
          ++ rustRelationshipType r ++ ","⟩ := rfl

theorem wrap_option_vec (X : String) :
    "Option<" ++ ("Vec<" ++ X ++ ">") ++ ">" = "Option<Vec<" ++ X ++ ">>" := by
  apply String.ext
  simp only [String.data_append, List.append_assoc]
  simp

theorem option_vec_ne_vec_option (X Y : String) :
    "Option<Vec<" ++ X ++ ">>" ≠ "Vec<Option<" ++ Y ++ ">>" := by
  have h1 : ("Option<Vec<" ++ X).toList
      = 'O' :: ("ption<Vec<".toList ++ X.toList) := toList_head_of_head X rfl
  have h2 : ("Vec<Option<" ++ Y).toList
      = 'V' :: ("ec<Option<".toList ++ Y.toList) := toList_head_of_head Y rfl
  exact append_ne_of_head (toList_head_of_head _ h1) (toList_head_of_head _ h2) (by decide)

/-! ## Claims -/

/-- C1: For every class declaration, the emitted record consists of: first
the synthetic discriminator member (declared `$class: String`, emitted as
`pub class: String,` — present, first, and never optional, even for zero
declared properties); then one member per declared property in source
order; and no member for a property literally named `identifier`. -/
theorem c1_class_record_members (decl : ClassDecl) :
    memberLines (visitClassDeclaration decl)
      = "pub class: String," ::
          ((decl.properties.filter fun property => ¬ (property.name = "identifier")).map
            propertyMemberLine) := by
  unfold visitClassDeclaration
  rw [memberLines_append, memberLines_append, memberLines_append,
      memberLines_visitField, memberLines_properties]
  have h1 : memberLines [⟨0, "#[derive(Debug, Serialize, Deserialize)]"⟩,
      ⟨0, "pub struct " ++ decl.name ++ " \x7b"⟩] = [] := by
    simp [memberLines, List.filter_cons,
      isMemberLine_indent (show (0 : Nat) ≠ 1 by decide)]
  have h2 : memberLines [⟨0, "\x7d"⟩, ⟨0, ""⟩] = [] := by decide
  have h3 : ("pub " ++ toValidRustName (removeFirstDollar "$class") ++ ": "
      ++ rustFieldType ⟨"$class", "String", false, false⟩ ++ ",") = "pub class: String," := by
    decide
  rw [h1, h2, h3]
  simp

/-- C2: For every field with `isArray = true` and `isOptional = true`, the
emitted type wraps the array around the base type first and the optional
around the array-wrapped result: `Option<Vec<Base>>`, never
`Vec<Option<Base>>`, and the emitted member line carries that type. -/
theorem c2_optional_array_wrapping (f : MemberDecl) (ha : f.isArray = true)
    (ho : f.isOptional = true) :
    rustFieldType f = "Option<Vec<" ++ toRustType f.typeName ++ ">>"
    ∧ rustFieldType f ≠ "Vec<Option<" ++ toRustType f.typeName ++ ">>"
    ∧ (visitField f).getLast?
        = some ⟨1, "pub " ++ toValidRustName (removeFirstDollar f.name) ++ ": "
            ++ ("Option<Vec<" ++ toRustType f.typeName ++ ">>") ++ ","⟩ := by
  have ht : rustFieldType f = "Option<Vec<" ++ toRustType f.typeName ++ ">>" := by
    have : rustFieldType f = "Option<" ++ ("Vec<" ++ toRustType f.typeName ++ ">") ++ ">" := by
      unfold rustFieldType
      rw [ha, ho]
      simp
    rw [this]
    exact wrap_option_vec _
  refine ⟨ht, ?_, ?_⟩
  · rw [ht]
    exact option_vec_ne_vec_option _ _
  · rw [visitField_getLast, ht]

theorem c2_optional_array_wrapping_witness :
    rustFieldType ⟨"tags", "String", true, true⟩ = "Option<Vec<String>>" := by
  have h := (c2_optional_array_wrapping ⟨"tags", "String", true, true⟩ rfl rfl).1
  exact h.trans (by decide)

/-- C6: For every DateTime-typed field: if optional, the emitted member
carries the skip-if-none annotation and the optional hook pair
(`serialize_datetime_option` / `deserialize_datetime_option`); if
non-optional, the plain pair (`serialize_datetime` / `deserialize_datetime`)
and no skip annotation. -/
theorem c6_datetime_hooks (f : MemberDecl) (hdate : f.typeName = "DateTime") :
    (f.isOptional = true →
      Line.mk 2 "skip_serializing_if = \"Option::is_none\"," ∈ visitField f ∧
      Line.mk 2 "serialize_with = \"serialize_datetime_option\"," ∈ visitField f ∧
      Line.mk 2 "deserialize_with = \"deserialize_datetime_option\"," ∈ visitField f)
    ∧ (f.isOptional = false →
      Line.mk 2 "serialize_with = \"serialize_datetime\"," ∈ visitField f ∧
      Line.mk 2 "deserialize_with = \"deserialize_datetime\"," ∈ visitField f ∧
      Line.mk 2 "skip_serializing_if = \"Option::is_none\"," ∉ visitField f) := by
  rcases f with ⟨name, tn, isArr, isOpt⟩
  subst hdate
  have hrs : ¬ (("skip_serializing_if = \"Option::is_none\"," : String)
      = "rename = \"" ++ name ++ "\",") :=
    append_ne_of_head rfl (toList_head_of_head _ (toList_head_of_head name rfl)) (by decide)
  cases isOpt
  · constructor
    · intro h
      cases h
    · intro _
      refine ⟨by simp [visitField, isDateField], by simp [visitField, isDateField], ?_⟩
      simp only [visitField, isDateField]
      simp [Line.mk.injEq, hrs]
  · constructor
    · intro _
      exact ⟨by simp [visitField], by simp [visitField, isDateField],
        by simp [visitField, isDateField]⟩
    · intro h
      cases h

theorem c6_datetime_hooks_witness :
    Line.mk 2 "skip_serializing_if = \"Option::is_none\"," ∈
        visitField ⟨"dob", "DateTime", false, true⟩ ∧
      Line.mk 2 "serialize_with = \"serialize_datetime_option\"," ∈
        visitField ⟨"dob", "DateTime", false, true⟩ ∧
      Line.mk 2 "serialize_with = \"serialize_datetime\"," ∈
        visitField ⟨"created", "DateTime", false, false⟩ :=
  ⟨((c6_datetime_hooks ⟨"dob", "DateTime", false, true⟩ rfl).1 rfl).1,
   ((c6_datetime_hooks ⟨"dob", "DateTime", false, true⟩ rfl).1 rfl).2.1,
   ((c6_datetime_hooks ⟨"created", "DateTime", false, false⟩ rfl).2 rfl).1⟩

/-- C7: The name sanitizer is idempotent: applying `toValidRustName` to its
own output returns that output unchanged, for every input string. -/
theorem c7_sanitizer_idempotent (input : String) :
    toValidRustName (toValidRustName input) = toValidRustName input :=
  toValidRustName_fixed (toValidRustName_chars input) (toValidRustName_not_keyword input)

/-- C10: For every emitted field or relationship member, the member
identifier is the sanitizer applied to the declared name with only the
first `$` removed (sanitized output never contains `$`, so later ones
become `_`), while the serde rename annotation keeps the original name; in
particular the synthetic `$class` field is emitted as member `class` with
rename `"$class"`. -/
theorem c10_member_naming :
    (∀ f : MemberDecl,
      Line.mk 2 ("rename = \"" ++ f.name ++ "\",") ∈ visitField f ∧
      (visitField f).getLast?
        = some ⟨1, "pub " ++ toValidRustName (removeFirstDollar f.name) ++ ": "
            ++ rustFieldType f ++ ","⟩)
    ∧ (∀ r : MemberDecl,
      Line.mk 1 ("#[serde(rename = \"" ++ r.name ++ "\")]") ∈ visitRelationshipDeclaration r ∧
      (visitRelationshipDeclaration r).getLast?
        = some ⟨1, "pub " ++ toValidRustName (removeFirstDollar r.name) ++ ": "
            ++ rustRelationshipType r ++ ","⟩)
    ∧ (∀ s : String, '$' ∉ (toValidRustName s).toList)
    ∧ visitField ⟨"$class", "String", false, false⟩
        = [⟨1, "#[serde("⟩, ⟨2, "rename = \"$class\","⟩, ⟨1, ")]"⟩,
           ⟨1, "pub class: String,"⟩] := by
  refine ⟨?_, ?_, ?_, by decide⟩
  · intro f
    exact ⟨by simp [visitField], visitField_getLast f⟩
  · intro r
    exact ⟨by simp [visitRelationshipDeclaration], visitRelationship_getLast r⟩
  · intro s h
    exact (by decide : '$' ∉ lowerIdentChars) (toValidRustName_chars s '$' h)

/-- C3: (code bug) The claimed output discipline `[a-z_][a-z0-9_]*` fails:
the step meant to prepend `_` when the first character is not a legal
identifier start can never fire, because digits are members of `validChars`
and in JavaScript `''.charAt(0)` is `''`, which `validChars.includes`
accepts.  So `"9"` maps to `"9"` (leading digit) and `""` maps to `""`,
neither matching the claimed language; the empty input is not
underscore-prefixed. -/
theorem c3_sanitizer_start_bug :
    toValidRustName "9" = "9" ∧ matchesLowerIdent "9" = false
    ∧ toValidRustName "" = "" ∧ matchesLowerIdent "" = false
    ∧ headCharValid ('9' :: "abc".toList) = true := by decide

/-- C8: counterexample — visiting a scalar declaration does change the open
output unit's line sequence: it appends the placeholder line
`scalarDeclaration - SSN`, so the appended line sequence is not empty. -/
theorem c8_counterexample :
    visitScalarDeclaration ⟨"SSN"⟩ = [⟨0, "scalarDeclaration - SSN"⟩]
    ∧ visitScalarDeclaration ⟨"SSN"⟩ ≠ ([] : List Line) := by decide

/-- C8 (amended): Visiting a scalar alias declaration emits no distinct
type — it contributes no member line — but it is not a passthrough: it
appends exactly one placeholder line `scalarDeclaration - <name>` to the
open output unit. -/
theorem c8_scalar_placeholder (s : ScalarDecl) :
    visitScalarDeclaration s = [⟨0, "scalarDeclaration - " ++ s.name⟩]
    ∧ memberLines (visitScalarDeclaration s) = [] := by
  refine ⟨rfl, ?_⟩
  unfold memberLines visitScalarDeclaration
  rw [List.filter_cons, isMemberLine_indent (show (0 : Nat) ≠ 1 by decide)]
  rfl

/-- C4: counterexample — for the namespace `org.Acme` the manifest module
line and the per-namespace file name are derived with the member-name
sanitizer `toValidRustName` (giving `org__acme`), not with the `@`/`.`
transliteration `toRustCrateName` (which gives `org_Acme`). -/
theorem c4_counterexample :
    libLines ["org.Acme"] = [⟨0, "pub mod org__acme;"⟩, ⟨0, "pub mod utils;"⟩]
    ∧ modelFileName "org.Acme" = "org__acme.rs"
    ∧ toRustCrateName "org.Acme" = "org_Acme"
    ∧ toValidRustName "org.Acme" ≠ toRustCrateName "org.Acme" := by decide

/-- C4 (amended): the manifest's module lines and the per-namespace file
names are derived by applying the member-name sanitizer `toValidRustName`
to the namespace string; `toRustCrateName` implements the `@`/`.`-to-`_`
transliteration but the emitters never invoke it (the two rules agree on
`org.acme` but differ on `org.Acme`). -/
theorem c4_module_identifiers_use_sanitizer (namespaces : List String)
    (ns : String) (hmem : ns ∈ namespaces) :
    Line.mk 0 ("pub mod " ++ toValidRustName ns ++ ";") ∈ libLines namespaces
    ∧ modelFileName ns = toValidRustName ns ++ ".rs"
    ∧ toValidRustName "org.acme" = toRustCrateName "org.acme"
    ∧ toValidRustName "org.Acme" ≠ toRustCrateName "org.Acme" := by
  refine ⟨?_, rfl, by decide, by decide⟩
  unfold libLines
  exact List.mem_append_left _ (List.mem_map_of_mem _ hmem)

theorem c4_module_identifiers_use_sanitizer_witness :
    Line.mk 0 "pub mod org_acme;" ∈ libLines ["org.acme"] := by
  have h := (c4_module_identifiers_use_sanitizer ["org.acme"] "org.acme"
    (List.mem_singleton_self _)).1
  rw [show ("pub mod " ++ toValidRustName "org.acme" ++ ";") = "pub mod org_acme;"
    from by decide] at h
  exact h

/-- C9: every node matching none of the nine capability tags makes the
dispatcher fail with the `Unrecognised type` error whose message carries
the node's textual inspection (as a suffix); there is no default emission
case. -/
theorem c9_dispatcher_unrecognised (thing : ModelNode)
    (h1 : thing.isModelManager = false) (h2 : thing.isModelFile = false)
    (h3 : thing.isEnum = false) (h4 : thing.isClassDeclaration = false)
    (h5 : thing.isTypeScalar = false) (h6 : thing.isField = false)
    (h7 : thing.isRelationship = false) (h8 : thing.isScalarDeclaration = false)
    (h9 : thing.isEnumValue = false) :
    visit thing = .unrecognised ("Unrecognised type: " ++ thing.typeofText
        ++ ", value: " ++ thing.inspectText)
    ∧ thing.inspectText.toList <:+ ("Unrecognised type: " ++ thing.typeofText
        ++ ", value: " ++ thing.inspectText).toList := by
  constructor
  · simp [visit, h1, h2, h3, h4, h5, h6, h7, h8, h9]
  · rw [str_toList_append]
    exact List.suffix_append _ _

theorem c9_dispatcher_unrecognised_witness :
    visit ⟨false, false, false, false, false, false, false, false, false,
        "object", "{ weird: true }"⟩
      = .unrecognised "Unrecognised type: object, value: { weird: true }" := by
  have h := (c9_dispatcher_unrecognised
    ⟨false, false, false, false, false, false, false, false, false,
      "object", "{ weird: true }"⟩
    rfl rfl rfl rfl rfl rfl rfl rfl rfl).1
  exact h.trans (by decide)

/-! ## Recursion-detector correctness machinery -/

theorem not_nodup_split {α : Type} {l : List α} (h : ¬ l.Nodup) :
    ∃ x l1 l2 l3, l = l1 ++ (x :: (l2 ++ (x :: l3))) := by
  induction l with
  | nil => exact absurd List.nodup_nil h
  | cons b rest ih =>
    by_cases hb : b ∈ rest
    · obtain ⟨s, t, hst⟩ := List.append_of_mem hb
      exact ⟨b, [], s, t, by rw [hst]; rfl⟩
    · have hr : ¬ rest.Nodup := fun hr => h (List.nodup_cons.2 ⟨hb, hr⟩)
      obtain ⟨x, l1, l2, l3, hx⟩ := ih hr
      exact ⟨x, b :: l1, l2, l3, by rw [hx]; rfl⟩

theorem chain_targets {α : Type} {r : α → α → Prop} :
    ∀ {a : α} {l : List α}, List.Chain r a l → ∀ x ∈ l, ∃ y, r y x := by
  intro a l
  induction l generalizing a with
  | nil => intro _ x hx; cases hx
  | cons b rest ih =>
    intro hc x hx
    rcases List.chain_cons.1 hc with ⟨hab, hrest⟩
    rcases List.mem_cons.1 hx with rfl | hx'
    · exact ⟨a, hab⟩
    · exact ih hrest x hx'

theorem lookupClass_self {model : List ClassNode}
    (hnodup : (model.map ClassNode.name).Nodup) :
    ∀ {decl : ClassNode}, decl ∈ model → lookupClass model decl.name = some decl := by
  induction model with
  | nil => intro decl h; cases h
  | cons d rest ih =>
    intro decl h
    rw [List.map_cons] at hnodup
    have hnd := List.nodup_cons.1 hnodup
    rcases List.mem_cons.1 h with rfl | h'
    · exact List.find?_cons_of_pos _ (by simp)
    · have hd : ¬ (d.name = decl.name) := by
        intro he
        exact hnd.1 (he ▸ List.mem_map_of_mem ClassNode.name h')
      show List.find? _ (d :: rest) = _
      rw [List.find?_cons_of_neg _ (by simpa using hd)]
      exact ih hnd.2 h'

theorem lookupClass_name {model : List ClassNode} {t : String} {c : ClassNode}
    (h : lookupClass model t = some c) : c.name = t ∧ c ∈ model := by
  have h' : List.find? (fun c => decide (c.name = t)) model = some c := h
  have hp := List.find?_some h'
  have hp' : decide (c.name = t) = true := hp
  exact ⟨of_decide_eq_true hp', List.mem_of_find?_eq_some h'⟩

theorem lookupClass_isSome_mem {model : List ClassNode} {t : String}
    (h : (lookupClass model t).isSome = true) : t ∈ model.map ClassNode.name := by
  obtain ⟨c, hc⟩ := Option.isSome_iff_exists.1 h
  obtain ⟨hname, hmem⟩ := lookupClass_name hc
  exact hname ▸ List.mem_map_of_mem ClassNode.name hmem

theorem cycle_shrink {α : Type} {r : α → α → Prop} :
    ∀ (n : Nat) (a : α) (l : List α), l.length ≤ n → l ≠ [] → List.Chain r a l →
      l.getLast? = some a →
      ∃ l', l' ≠ [] ∧ List.Chain r a l' ∧ l'.getLast? = some a ∧
        l'.dropLast.Nodup ∧ a ∉ l'.dropLast := by
  intro n
  induction n with
  | zero =>
    intro a l hlen hne
    cases l with
    | nil => exact absurd rfl hne
    | cons b bs => simp at hlen
  | succ n ih =>
    intro a l hlen hne hchain hlast
    by_cases hgood : l.dropLast.Nodup ∧ a ∉ l.dropLast
    · exact ⟨l, hne, hchain, hlast, hgood.1, hgood.2⟩
    · have hga : l.getLast hne = a := by
        have := List.getLast?_eq_getLast l hne
        rw [hlast] at this
        exact (Option.some.inj this).symm
      have hl : l = l.dropLast ++ [a] := by
        conv_lhs => rw [← List.dropLast_append_getLast hne]
        rw [hga]
      by_cases hmem : a ∈ l.dropLast
      · obtain ⟨d1, d2, hd⟩ := List.append_of_mem hmem
        have hl2 : l = d1 ++ (a :: (d2 ++ [a])) := by
          rw [hl, hd]; simp
        have hsplit := List.chain_split.1 (hl2 ▸ hchain)
        have hlen1 : (d1 ++ [a]).length ≤ n := by
          have h1 : l.length = d1.length + d2.length + 2 := by rw [hl2]; simp; omega
          simp
          omega
        exact ih a (d1 ++ [a]) hlen1 (by simp) hsplit.1 (List.getLast?_concat _)
      · have hnd : ¬ l.dropLast.Nodup := fun h => hgood ⟨h, hmem⟩
        obtain ⟨x, l1, l2, l3, hx⟩ := not_nodup_split hnd
        have hl2 : l = l1 ++ (x :: (l2 ++ (x :: (l3 ++ [a])))) := by
          rw [hl, hx]; simp
        have h1 := List.chain_split.1 (hl2 ▸ hchain)
        have h2 := List.chain_split.1 h1.2
        have hc' : List.Chain r a (l1 ++ (x :: (l3 ++ [a]))) :=
          List.chain_split.2 ⟨h1.1, h2.2⟩
        have hlen1 : (l1 ++ (x :: (l3 ++ [a]))).length ≤ n := by
          have h3 : l.length = l1.length + l2.length + l3.length + 3 := by
            rw [hl2]; simp; omega
          simp
          omega
        have hlast1 : (l1 ++ (x :: (l3 ++ [a]))).getLast? = some a := by
          rw [show l1 ++ (x :: (l3 ++ [a])) = (l1 ++ (x :: l3)) ++ [a] by simp]
          exact List.getLast?_concat _
        exact ih a _ hlen1 (by simp) hc' hlast1

theorem recCheck_sound {model : List ClassNode} {origin : String} :
    ∀ (fuel : Nat) (stack : List String) (node : ClassNode),
      lookupClass model node.name = some node →
      recCheck model origin fuel stack node = true →
      Relation.TransGen (classEdge model) node.name origin := by
  intro fuel
  induction fuel with
  | zero =>
    intro stack node _ h
    simp [recCheck] at h
  | succ fuel ih =>
    intro stack node hnode h
    rw [recCheck] at h
    obtain ⟨t, ht, hbranch⟩ := List.any_eq_true.1 h
    split at hbranch
    · cases hbranch
    · rename_i child heq
      split at hbranch
      · have hto : t = origin := of_decide_eq_true hbranch
        subst hto
        exact Relation.TransGen.single ⟨node, hnode, ht, by rw [heq]; rfl⟩
      · have hcn := lookupClass_name heq
        have hchild : lookupClass model child.name = some child := by
          rw [hcn.1]; exact heq
        have hedge : classEdge model node.name child.name := by
          rw [hcn.1]
          exact ⟨node, hnode, ht, by rw [heq]; rfl⟩
        exact Relation.TransGen.head hedge (ih _ child hchild hbranch)

theorem recCheck_complete {model : List ClassNode} {origin : String} :
    ∀ (l : List String) (fuel : Nat) (stack : List String) (node : ClassNode),
      List.Chain (classEdge model) node.name l →
      l.getLast? = some origin → l ≠ [] →
      l.dropLast.Nodup → (∀ x ∈ l.dropLast, x ∉ node.name :: stack) →
      origin ∈ node.name :: stack →
      lookupClass model node.name = some node →
      l.length ≤ fuel →
      recCheck model origin fuel stack node = true := by
  intro l
  induction l with
  | nil =>
    intro fuel stack node _ _ hne
    exact absurd rfl hne
  | cons t rest ih =>
    intro fuel stack node hchain hlast hne hnodup havoid horigin hnode hlen
    rcases List.chain_cons.1 hchain with ⟨hedge, hrest⟩
    obtain ⟨c, hc, htc, hsome⟩ := hedge
    have hceq : c = node := by
      rw [hnode] at hc
      exact (Option.some.inj hc).symm
    rw [hceq] at htc
    obtain ⟨child, hl⟩ := Option.isSome_iff_exists.1 hsome
    have hchildname := (lookupClass_name hl).1
    cases fuel with
    | zero => simp at hlen
    | succ fuel =>
      rw [recCheck]
      apply List.any_eq_true.2
      refine ⟨t, htc, ?_⟩
      rw [hl]
      show (if t ∈ node.name :: stack then decide (t = origin)
            else recCheck model origin fuel (node.name :: stack) child) = true
      cases rest with
      | nil =>
        rw [List.getLast?_singleton] at hlast
        have ht0 : t = origin := Option.some.inj hlast
        subst ht0
        rw [if_pos horigin]
        exact decide_eq_true rfl
      | cons r0 rs =>
        have hdl : (t :: r0 :: rs).dropLast = t :: (r0 :: rs).dropLast := rfl
        have htmem : t ∈ (t :: r0 :: rs).dropLast := by
          rw [hdl]
          exact List.mem_cons_self _ _
        have hnotstack : t ∉ node.name :: stack := havoid t htmem
        rw [if_neg hnotstack]
        apply ih fuel (node.name :: stack) child
        · rw [hchildname]
          exact hrest
        · rw [List.getLast?_cons_cons] at hlast
          exact hlast
        · exact List.cons_ne_nil _ _
        · have hn2 := hnodup
          rw [hdl] at hn2
          exact (List.nodup_cons.1 hn2).2
        · intro x hx
          have hxl : x ∈ (t :: r0 :: rs).dropLast := by
            rw [hdl]
            exact List.mem_cons_of_mem _ hx
          have hx1 : x ∉ node.name :: stack := havoid x hxl
          have hxt : x ≠ t := by
            intro he
            have hn2 := hnodup
            rw [hdl] at hn2
            exact (List.nodup_cons.1 hn2).1 (he ▸ hx)
          rw [hchildname]
          intro hmem'
          rcases List.mem_cons.1 hmem' with h' | h'
          · exact hxt h'
          · exact hx1 h'
        · exact List.mem_cons_of_mem _ horigin
        · rw [hchildname]
          exact hl
        · simp only [List.length_cons] at hlen ⊢
          omega

/-- C5: (spec-modelled: `./recursionvisitor` is absent from `src/`, so the
traversal is modelled from §4.4 of the specification) for a model whose
class names are distinct and a class `decl` of the model, the
recursion-detection traversal reports true exactly when `decl` is reachable
from itself along class-typed property edges; a cycle elsewhere on the
traversal that does not return to `decl`, and diamond-shaped acyclic
sharing, therefore yield false. -/
theorem c5_is_recursive_iff_self_reachable (model : List ClassNode) (decl : ClassNode)
    (hnodup : (model.map ClassNode.name).Nodup) (hmem : decl ∈ model) :
    isModelRecursive model decl = true
      ↔ Relation.TransGen (classEdge model) decl.name decl.name := by
  constructor
  · intro h
    exact recCheck_sound _ _ decl (lookupClass_self hnodup hmem) h
  · intro h
    obtain ⟨c, hac, hcb⟩ := Relation.TransGen.head'_iff.1 h
    obtain ⟨l, hchainl, hlastl⟩ := List.exists_chain_of_relationReflTransGen hcb
    have hchain2 : List.Chain (classEdge model) decl.name (c :: l) :=
      List.Chain.cons hac hchainl
    have hlast2 : (c :: l).getLast? = some decl.name := by
      rw [List.getLast?_eq_getLast _ (List.cons_ne_nil _ _)]
      exact congrArg some hlastl
    obtain ⟨l', hne', hchain', hlast', hnodup', hnotmem'⟩ :=
      cycle_shrink (c :: l).length decl.name (c :: l) le_rfl (List.cons_ne_nil _ _)
        hchain2 hlast2
    have hsub : ∀ x ∈ l'.dropLast, x ∈ model.map ClassNode.name := by
      intro x hx
      obtain ⟨y, hy⟩ := chain_targets hchain' x ((List.dropLast_sublist l').subset hx)
      obtain ⟨cc, _, _, hcs⟩ := hy
      exact lookupClass_isSome_mem hcs
    have hlenb : l'.dropLast.length ≤ model.length := by
      calc l'.dropLast.length = l'.dropLast.toFinset.card :=
            (List.toFinset_card_of_nodup hnodup').symm
        _ ≤ (model.map ClassNode.name).toFinset.card :=
            Finset.card_le_card
              (fun x hx => List.mem_toFinset.2 (hsub x (List.mem_toFinset.1 hx)))
        _ ≤ (model.map ClassNode.name).length := List.toFinset_card_le _
        _ = model.length := List.length_map _ _
    have hlen' : l'.length ≤ model.length + 1 := by
      have he : l'.length = l'.dropLast.length + 1 := by
        cases l' with
        | nil => exact absurd rfl hne'
        | cons a as =>
          simp [List.length_dropLast]
      omega
    exact recCheck_complete l' (model.length + 1) [] decl hchain' hlast' hne' hnodup'
      (fun x hx => by
        have hxd : x ≠ decl.name := fun he => hnotmem' (he ▸ hx)
        simp [hxd])
      (List.mem_cons_self _ _) (lookupClass_self hnodup hmem) hlen'

theorem c5_is_recursive_iff_self_reachable_witness :
    Relation.TransGen (classEdge [⟨"A", ["B"]⟩, ⟨"B", ["C"]⟩, ⟨"C", ["A"]⟩]) "A" "A"
    ∧ isModelRecursive [⟨"A", ["B", "C"]⟩, ⟨"B", ["D"]⟩, ⟨"C", ["D"]⟩, ⟨"D", []⟩]
        ⟨"A", ["B", "C"]⟩ = false
    ∧ isModelRecursive [⟨"A", ["B"]⟩, ⟨"B", ["C"]⟩, ⟨"C", ["B"]⟩] ⟨"A", ["B"]⟩ = false := by
  refine ⟨?_, by decide, by decide⟩
  exact (c5_is_recursive_iff_self_reachable [⟨"A", ["B"]⟩, ⟨"B", ["C"]⟩, ⟨"C", ["A"]⟩]
    ⟨"A", ["B"]⟩ (by decide) (by decide)).1 (by decide)
